import Mathlib

/-!
Shallow embedding of the `jsdsl` circular buffer (`CircularBuffer<T>`) and the
companion optional-value wrapper (`Option<T>`, embedded here as `JsOption` to
avoid clashing with Lean's `Option`).

Modelling conventions:
* JavaScript numbers that hold integers are modelled as `Int`; the JS `%`
  operator (truncated remainder) is `Int.tmod`.
* The backing store `buffer` is a growable JS array whose slots hold either a
  value or `undefined`; it is modelled as `List (Option T)` where `none` is
  `undefined` (including holes created by out-of-range writes).  Writing at an
  index beyond the current length pads the intermediate slots with `none`,
  exactly as JS array assignment creates holes that read back as `undefined`.
* `Array.prototype.slice` is modelled by `jsSlice` / `jsSliceFrom` with the
  JS index-clamping rules (negative indices count from the end).
* A method that can `throw` returns its result inside `Option` -- `none`
  means the call threw -- paired with the state after the call, so that
  "no mutation on failure" is expressible.  `shift`/`dequeue` return
  `CircularBuffer T × Option (Option T)`: the outer `Option` is
  throw/no-throw, the inner one is the JS value returned (which may itself
  be `undefined`, i.e. `none`).
-/

/-- JS array read `l[i]` for an integer index: out-of-range or hole reads
give `undefined` (`none`); a negative index is not an array element. -/
def readAt {T : Type} (l : List (Option T)) (i : Int) : Option T :=
  if i < 0 then none else (l[i.toNat]?).getD none

/-- JS array write `l[i] = v`: in-range writes update, writes past the end
pad with holes (`none`) up to index `i`; a negative index does not create an
array element and is invisible to reads/slices, so the list is unchanged. -/
def setAt {T : Type} (l : List (Option T)) (i : Int) (v : Option T) :
    List (Option T) :=
  if i < 0 then l
  else if i.toNat < l.length then l.set i.toNat v
  else l ++ List.replicate (i.toNat - l.length) none ++ [v]

/-- JS `Array.prototype.slice` index normalization: a negative index counts
back from the end, clamped to `[0, len]`. -/
def normIdx (len : Nat) (i : Int) : Nat :=
  if i < 0 then ((len : Int) + i).toNat else min i.toNat len

/-- JS `l.slice(start, stop)`. -/
def jsSlice {α : Type} (l : List α) (start stop : Int) : List α :=
  (l.take (normIdx l.length stop)).drop (normIdx l.length start)

/-- JS `l.slice(start)` (up to the end of the array). -/
def jsSliceFrom {α : Type} (l : List α) (start : Int) : List α :=
  l.drop (normIdx l.length start)

/-- The index normalization `((i % c) + c) % c` with the JS truncated `%`,
as a standalone function of the capacity (used by `wrapIndex` below). -/
def wrapMod (c i : Int) : Int :=
  ((i.tmod c) + c).tmod c

/-- The state of a `CircularBuffer<T>` object: the fields of the TS class. -/
structure CircularBuffer (T : Type) where
  firstIndex : Int
  elementCount : Int
  capacity : Int
  buffer : List (Option T)
  allowOverwrite : Bool
  allowOverremove : Bool

/-- The constructor `new CircularBuffer(capacity, allowOverwrite,
allowOverremove)`: empty buffer, `firstIndex = 0`. -/
def CircularBuffer.new {T : Type} (capacity : Int)
    (allowOverwrite allowOverremove : Bool) : CircularBuffer T :=
  ⟨0, 0, capacity, [], allowOverwrite, allowOverremove⟩

/-- `wrapIndex(index)`: `((index % capacity) + capacity) % capacity` with the
JS truncated `%`. -/
def CircularBuffer.wrapIndex {T : Type} (b : CircularBuffer T) (index : Int) :
    Int :=
  wrapMod b.capacity index

/-- `getEndIndex()`: `wrapIndex(firstIndex + elementCount)`. -/
def CircularBuffer.getEndIndex {T : Type} (b : CircularBuffer T) : Int :=
  b.wrapIndex (b.firstIndex + b.elementCount)

/-- `getCapacity()`. -/
def CircularBuffer.getCapacity {T : Type} (b : CircularBuffer T) : Int :=
  b.capacity

/-- `size()`. -/
def CircularBuffer.size {T : Type} (b : CircularBuffer T) : Int :=
  b.elementCount

/-- `isEmpty()`: `size() === 0`. -/
def CircularBuffer.isEmpty {T : Type} (b : CircularBuffer T) : Bool :=
  decide (b.size = 0)

/-- `isFull()`: `size() >= getCapacity()`. -/
def CircularBuffer.isFull {T : Type} (b : CircularBuffer T) : Bool :=
  decide (b.size ≥ b.getCapacity)

/-- `freeSpace()`: `getCapacity() - size()`. -/
def CircularBuffer.freeSpace {T : Type} (b : CircularBuffer T) : Int :=
  b.getCapacity - b.size

/-- `arePointersReversed()`: `firstIndex > wrapIndex(getEndIndex() - 1)`. -/
def CircularBuffer.arePointersReversed {T : Type} (b : CircularBuffer T) :
    Bool :=
  decide (b.firstIndex > b.wrapIndex (b.getEndIndex - 1))

/-- `checkInsertionLimitations(insertionSize)`: `true` means the check throws
(`!allowOverwrite && insertionSize > freeSpace()`). -/
def CircularBuffer.checkInsertionLimitations {T : Type} (b : CircularBuffer T)
    (insertionSize : Int) : Bool :=
  !b.allowOverwrite && decide (insertionSize > b.freeSpace)

/-- `checkRemovalLimitations(removalSize)`: `true` means the check throws
(`!allowOverremove && removalSize > elementCount`). -/
def CircularBuffer.checkRemovalLimitations {T : Type} (b : CircularBuffer T)
    (removalSize : Int) : Bool :=
  !b.allowOverremove && decide (removalSize > b.elementCount)

/-- The body of the `for` loop of `push`, for one element: store at
`getEndIndex()`; if the buffer was full advance `firstIndex`, otherwise
increment `elementCount`. -/
def CircularBuffer.pushStep {T : Type} (b : CircularBuffer T) (element : T) :
    CircularBuffer T :=
  let wasFull := b.isFull
  let b' := { b with buffer := setAt b.buffer b.getEndIndex (some element) }
  if wasFull then { b' with firstIndex := b'.wrapIndex (b'.firstIndex + 1) }
  else { b' with elementCount := b'.elementCount + 1 }

/-- The `for` loop of `push` over the (possibly truncated) element list. -/
def CircularBuffer.pushLoop {T : Type} :
    CircularBuffer T → List T → CircularBuffer T
  | b, [] => b
  | b, element :: rest => (b.pushStep element).pushLoop rest

/-- `push(...elements)`: validate, truncate to the last `capacity` elements
when overwriting, run the loop, return the new size.  `none` in the second
component means the call threw; the first component is the state after the
call. -/
def CircularBuffer.push {T : Type} (b : CircularBuffer T) (elements : List T) :
    CircularBuffer T × Option Int :=
  if b.checkInsertionLimitations elements.length then (b, none)
  else
    let els := if b.allowOverwrite
      then jsSliceFrom elements (-b.getCapacity) else elements
    let b' := b.pushLoop els
    (b', some b'.size)

/-- The body of the `for` loop of `enqueue`, for one element: store at
`wrapIndex(firstIndex - 1)`, move `firstIndex` there, and increment
`elementCount` unless the buffer was full. -/
def CircularBuffer.enqueueStep {T : Type} (b : CircularBuffer T)
    (element : T) : CircularBuffer T :=
  let wasFull := b.isFull
  let newFirstIndex := b.wrapIndex (b.firstIndex - 1)
  { b with buffer := setAt b.buffer newFirstIndex (some element),
           firstIndex := newFirstIndex,
           elementCount := if wasFull then b.elementCount
                           else b.elementCount + 1 }

/-- The `for` loop of `enqueue` over the (possibly truncated) element list. -/
def CircularBuffer.enqueueLoop {T : Type} :
    CircularBuffer T → List T → CircularBuffer T
  | b, [] => b
  | b, element :: rest => (b.enqueueStep element).enqueueLoop rest

/-- `enqueue(...elements)`: same shape as `push`, inserting at the front. -/
def CircularBuffer.enqueue {T : Type} (b : CircularBuffer T)
    (elements : List T) : CircularBuffer T × Option Int :=
  if b.checkInsertionLimitations elements.length then (b, none)
  else
    let els := if b.allowOverwrite
      then jsSliceFrom elements (-b.getCapacity) else elements
    let b' := b.enqueueLoop els
    (b', some b'.size)

/-- `shift()`: remove and return the first element.  Second component `none`
means the call threw; `some none` means it returned `undefined`. -/
def CircularBuffer.shift {T : Type} (b : CircularBuffer T) :
    CircularBuffer T × Option (Option T) :=
  if b.isEmpty && b.allowOverremove then (b, some none)
  else if b.checkRemovalLimitations 1 then (b, none)
  else
    let result := readAt b.buffer b.firstIndex
    ({ b with buffer := setAt b.buffer b.firstIndex none,
              firstIndex := b.wrapIndex (b.firstIndex + 1),
              elementCount := b.elementCount - 1 }, some result)

/-- `dequeue()`: remove and return the last element. -/
def CircularBuffer.dequeue {T : Type} (b : CircularBuffer T) :
    CircularBuffer T × Option (Option T) :=
  if b.isEmpty && b.allowOverremove then (b, some none)
  else if b.checkRemovalLimitations 1 then (b, none)
  else
    let resultIndex := b.wrapIndex (b.getEndIndex - 1)
    let result := readAt b.buffer resultIndex
    ({ b with buffer := setAt b.buffer resultIndex none,
              elementCount := b.elementCount - 1 }, some result)

/-- `pop()`: alias for `dequeue()`. -/
def CircularBuffer.pop {T : Type} (b : CircularBuffer T) :
    CircularBuffer T × Option (Option T) :=
  b.dequeue

/-- `toArray()`: the wrapped branch concatenates `buffer.slice(firstIndex)`
and `buffer.slice(0, getEndIndex())`; the other branch is
`buffer.slice(firstIndex, size())` exactly as written in the source. -/
def CircularBuffer.toArray {T : Type} (b : CircularBuffer T) :
    List (Option T) :=
  if b.arePointersReversed then
    jsSliceFrom b.buffer b.firstIndex ++ jsSlice b.buffer 0 b.getEndIndex
  else
    jsSlice b.buffer b.firstIndex b.size

/-- The numeric invariants of the class for a positive-capacity buffer:
`0 < capacity`, `0 ≤ firstIndex < capacity` and `0 ≤ elementCount ≤
capacity`. -/
def CircularBuffer.WF {T : Type} (b : CircularBuffer T) : Prop :=
  0 < b.capacity ∧ 0 ≤ b.firstIndex ∧ b.firstIndex < b.capacity ∧
    0 ≤ b.elementCount ∧ b.elementCount ≤ b.capacity

instance {T : Type} (b : CircularBuffer T) : Decidable b.WF := by
  unfold CircularBuffer.WF; infer_instance

/-- The window of `n` slots of `buf` starting at index `f` modulo `c`, read
in increasing logical order. -/
def seqFrom {T : Type} (buf : List (Option T)) (c f : Int) (n : Nat) :
    List (Option T) :=
  (List.range n).map (fun k : Nat => readAt buf (wrapMod c (f + (k : Int))))

/-- The logical sequence of the buffer as described by the data model: the
`elementCount` slots starting at `firstIndex`, in increasing order modulo
`capacity`. -/
def CircularBuffer.logicalSeq {T : Type} (b : CircularBuffer T) :
    List (Option T) :=
  seqFrom b.buffer b.capacity b.firstIndex b.elementCount.toNat

/-- Results of calling `shift()` `n` times in a row (the states are threaded
through; each entry is the second component returned by one call). -/
def CircularBuffer.shiftResults {T : Type} :
    CircularBuffer T → Nat → List (Option (Option T))
  | _, 0 => []
  | b, n + 1 => (b.shift).2 :: (b.shift).1.shiftResults n

/-- Results of calling `dequeue()` `n` times in a row. -/
def CircularBuffer.dequeueResults {T : Type} :
    CircularBuffer T → Nat → List (Option (Option T))
  | _, 0 => []
  | b, n + 1 => (b.dequeue).2 :: (b.dequeue).1.dequeueResults n

/-- The state of an `Option<T>` object of `src/ts/option.ts` (named
`JsOption` here because `Option` is taken by Lean).  The internal `value`
field may itself be `undefined`, hence `Option T`. -/
structure JsOption (T : Type) where
  hasInternalValue : Bool
  value : Option T

/-- `Option.some(value)`. -/
def JsOption.someOf {T : Type} (value : T) : JsOption T :=
  ⟨true, some value⟩

/-- `Option.none()`. -/
def JsOption.noneOf (T : Type) : JsOption T :=
  ⟨false, Option.none⟩

/-- `isSome()`. -/
def JsOption.isSome {T : Type} (o : JsOption T) : Bool :=
  o.hasInternalValue

/-- `isNone()`: `!hasInternalValue`. -/
def JsOption.isNone {T : Type} (o : JsOption T) : Bool :=
  !o.hasInternalValue

/-- `getValue()`: returns the raw internal value (possibly `undefined`). -/
def JsOption.getValue {T : Type} (o : JsOption T) : Option T :=
  o.value

/-- `setValueIfNone(valueIfNone)`: if `isNone()`, set `value` -- and, as in
the source, only `value`; `hasInternalValue` is not touched. -/
def JsOption.setValueIfNone {T : Type} (o : JsOption T) (valueIfNone : T) :
    JsOption T :=
  if o.isNone then { o with value := some valueIfNone } else o

/-! ### Arithmetic facts about `wrapMod` -/

theorem Int.neg_tmod' (a b : Int) : (-a).tmod b = -(a.tmod b) := by
  rw [Int.tmod_def, Int.tmod_def, Int.neg_tdiv]
  ring

theorem Int.neg_lt_tmod (i : Int) {c : Int} (hc : 0 < c) : -c < i.tmod c := by
  rcases le_or_lt 0 i with hi | hi
  · have := Int.tmod_nonneg c hi
    omega
  · have h1 : (-i).tmod c < c := Int.tmod_lt_of_pos _ hc
    have h2 : (-i).tmod c = -(i.tmod c) := Int.neg_tmod' i c
    omega

theorem Int.tmod_emod (i c : Int) : (i.tmod c) % c = i % c := by
  have h : i.tmod c = i + c * (-(i.tdiv c)) := by
    rw [Int.tmod_def]; ring
  rw [h, Int.add_mul_emod_self_left]

theorem wrapMod_eq_emod {c : Int} (hc : 0 < c) (i : Int) :
    wrapMod c i = i % c := by
  unfold wrapMod
  have h1 : 0 ≤ i.tmod c + c := by
    have := Int.neg_lt_tmod i hc
    omega
  rw [Int.tmod_eq_emod h1 hc.le]
  have h2 : (i.tmod c + c) % c = (i.tmod c + c * 1) % c := by ring_nf
  rw [h2, Int.add_mul_emod_self_left, Int.tmod_emod]

theorem wrapMod_nonneg {c : Int} (hc : 0 < c) (i : Int) : 0 ≤ wrapMod c i := by
  rw [wrapMod_eq_emod hc]
  exact Int.emod_nonneg i hc.ne'

theorem wrapMod_lt {c : Int} (hc : 0 < c) (i : Int) : wrapMod c i < c := by
  rw [wrapMod_eq_emod hc]
  exact Int.emod_lt_of_pos i hc

theorem wrapMod_add_right {c : Int} (hc : 0 < c) (x y : Int) :
    wrapMod c (wrapMod c x + y) = wrapMod c (x + y) := by
  rw [wrapMod_eq_emod hc, wrapMod_eq_emod hc, wrapMod_eq_emod hc,
    Int.emod_add_emod]

theorem wrapMod_eq_self {c : Int} (hc : 0 < c) {x : Int} (h1 : 0 ≤ x)
    (h2 : x < c) : wrapMod c x = x := by
  rw [wrapMod_eq_emod hc]
  exact Int.emod_eq_of_lt h1 h2

theorem wrapMod_add_cap {c : Int} (hc : 0 < c) (x : Int) :
    wrapMod c (x + c) = wrapMod c x := by
  rw [wrapMod_eq_emod hc, wrapMod_eq_emod hc]
  have h : x + c = x + c * 1 := by omega
  rw [h, Int.add_mul_emod_self_left]

theorem wrapMod_window_ne {c : Int} (hc : 0 < c) (x d1 d2 : Int)
    (h1 : 0 < d2 - d1) (h2 : d2 - d1 < c) :
    wrapMod c (x + d1) ≠ wrapMod c (x + d2) := by
  intro h
  rw [wrapMod_eq_emod hc, wrapMod_eq_emod hc] at h
  have hdvd : c ∣ (d2 - d1) := by
    have hsub : (x + d2 - (x + d1)) % c = ((x + d2) % c - (x + d1) % c) % c :=
      Int.sub_emod _ _ _
    rw [h, sub_self, Int.zero_emod] at hsub
    have he : x + d2 - (x + d1) = d2 - d1 := by ring
    rw [he] at hsub
    exact Int.dvd_of_emod_eq_zero hsub
  have hz : (d2 - d1) % c = 0 := Int.emod_eq_zero_of_dvd hdvd
  rw [Int.emod_eq_of_lt h1.le h2] at hz
  omega

/-! ### JS array access lemmas -/

theorem padGet {T : Type} (l : List (Option T)) (m : Nat) (v : Option T)
    (j : Nat) :
    ((l ++ List.replicate m none ++ [v])[j]?).getD none =
      if j < l.length then (l[j]?).getD none
      else if j = l.length + m then v
      else none := by
  rcases lt_or_le j l.length with hj | hj
  · have h1 : ((l ++ List.replicate m none) ++ [v])[j]?
        = (l ++ List.replicate m none)[j]? :=
      List.getElem?_append_left (by simp; omega)
    have h2 : (l ++ List.replicate m none)[j]? = l[j]? :=
      List.getElem?_append_left hj
    rw [if_pos hj, h1, h2]
  · rw [if_neg (by omega)]
    rcases eq_or_ne j (l.length + m) with he | hne
    · have h1 : ((l ++ List.replicate m none) ++ [v])[j]?
          = [v][j - (l ++ List.replicate m none).length]? :=
        List.getElem?_append_right (by simp; omega)
      rw [if_pos he, h1]
      simp [he]
    · rw [if_neg hne]
      rcases lt_or_le j (l.length + m) with hlt | hge
      · have h1 : ((l ++ List.replicate m none) ++ [v])[j]?
            = (l ++ List.replicate m none)[j]? :=
          List.getElem?_append_left (by simp; omega)
        have h2 : (l ++ List.replicate m none)[j]?
            = (List.replicate m (none : Option T))[j - l.length]? :=
          List.getElem?_append_right hj
        rw [h1, h2, List.getElem?_replicate_of_lt (by omega)]
        rfl
      · rw [List.getElem?_len_le (by simp; omega)]
        rfl

theorem readAt_setAt_self {T : Type} (l : List (Option T)) {i : Int}
    (hi : 0 ≤ i) (v : Option T) : readAt (setAt l i v) i = v := by
  unfold readAt setAt
  rw [if_neg (by omega), if_neg (by omega)]
  by_cases h : i.toNat < l.length
  · rw [if_pos h, List.getElem?_set_self (by simpa using h)]
    rfl
  · rw [if_neg h, padGet, if_neg (by omega), if_pos (by omega)]

theorem readAt_setAt_ne {T : Type} (l : List (Option T)) {i j : Int}
    (hne : j ≠ i) (v : Option T) : readAt (setAt l i v) j = readAt l j := by
  unfold readAt setAt
  by_cases hj : j < 0
  · rw [if_pos hj, if_pos hj]
  rw [if_neg hj, if_neg hj]
  by_cases hi : i < 0
  · rw [if_pos hi]
  rw [if_neg hi]
  have hij : i.toNat ≠ j.toNat := by omega
  by_cases h : i.toNat < l.length
  · rw [if_pos h, List.getElem?_set_ne hij]
  · rw [if_neg h, padGet]
    by_cases hjl : j.toNat < l.length
    · rw [if_pos hjl]
    · rw [if_neg hjl, if_neg (by omega), List.getElem?_len_le (by omega)]
      rfl

/-! ### Lemmas about logical windows (`seqFrom`) -/

theorem seqFrom_length {T : Type} (buf : List (Option T)) (c f : Int)
    (n : Nat) : (seqFrom buf c f n).length = n := by
  unfold seqFrom
  simp

theorem seqFrom_succ_last {T : Type} (buf : List (Option T)) (c f : Int)
    (n : Nat) :
    seqFrom buf c f (n + 1)
      = seqFrom buf c f n ++ [readAt buf (wrapMod c (f + (n : Int)))] := by
  unfold seqFrom
  rw [List.range_succ, List.map_append]
  rfl

theorem seqFrom_cons {T : Type} (buf : List (Option T)) (c f : Int)
    (n : Nat) :
    seqFrom buf c f (n + 1)
      = readAt buf (wrapMod c f) :: seqFrom buf c (f + 1) n := by
  unfold seqFrom
  rw [List.range_succ_eq_map, List.map_cons, List.map_map]
  congr 1
  · rw [Int.ofNat_zero, add_zero]
  · apply List.map_congr_left
    intro k _
    simp only [Function.comp_apply]
    congr 1
    push_cast
    ring

theorem seqFrom_startWrap {T : Type} (buf : List (Option T)) {c : Int}
    (hc : 0 < c) (x d : Int) (n : Nat) :
    seqFrom buf c (wrapMod c x + d) n = seqFrom buf c (x + d) n := by
  unfold seqFrom
  apply List.map_congr_left
  intro k _
  congr 1
  have h1 : wrapMod c x + d + (k : Int) = wrapMod c x + (d + k) := by ring
  have h2 : x + d + (k : Int) = x + (d + k) := by ring
  rw [h1, h2, wrapMod_add_right hc]

theorem seqFrom_setAt_outside {T : Type} (buf : List (Option T)) (c f i : Int)
    (v : Option T) (n : Nat)
    (h : ∀ k : Nat, k < n → wrapMod c (f + (k : Int)) ≠ i) :
    seqFrom (setAt buf i v) c f n = seqFrom buf c f n := by
  unfold seqFrom
  apply List.map_congr_left
  intro k hk
  exact readAt_setAt_ne buf (h k (List.mem_range.mp hk)) v

/-! ### Unfolding equations for the mutation steps -/

theorem pushStep_eq_notFull {T : Type} {b : CircularBuffer T}
    (h : b.isFull = false) (e : T) :
    b.pushStep e = { b with buffer := setAt b.buffer b.getEndIndex (some e),
                            elementCount := b.elementCount + 1 } := by
  unfold CircularBuffer.pushStep
  rw [h]
  rfl

theorem pushStep_eq_full {T : Type} {b : CircularBuffer T}
    (h : b.isFull = true) (e : T) :
    b.pushStep e = { b with buffer := setAt b.buffer b.getEndIndex (some e),
                            firstIndex := b.wrapIndex (b.firstIndex + 1) } := by
  unfold CircularBuffer.pushStep
  rw [h]
  rfl

theorem enqueueStep_eq_notFull {T : Type} {b : CircularBuffer T}
    (h : b.isFull = false) (e : T) :
    b.enqueueStep e
      = { b with buffer := setAt b.buffer (b.wrapIndex (b.firstIndex - 1))
                             (some e),
                 firstIndex := b.wrapIndex (b.firstIndex - 1),
                 elementCount := b.elementCount + 1 } := by
  unfold CircularBuffer.enqueueStep
  rw [h]
  rfl

theorem enqueueStep_eq_full {T : Type} {b : CircularBuffer T}
    (h : b.isFull = true) (e : T) :
    b.enqueueStep e
      = { b with buffer := setAt b.buffer (b.wrapIndex (b.firstIndex - 1))
                             (some e),
                 firstIndex := b.wrapIndex (b.firstIndex - 1) } := by
  unfold CircularBuffer.enqueueStep
  rw [h]
  rfl

theorem shift_eq_removing {T : Type} {b : CircularBuffer T}
    (hpos : 0 < b.elementCount) :
    b.shift = ({ b with buffer := setAt b.buffer b.firstIndex none,
                        firstIndex := b.wrapIndex (b.firstIndex + 1),
                        elementCount := b.elementCount - 1 },
               some (readAt b.buffer b.firstIndex)) := by
  unfold CircularBuffer.shift
  have h1 : b.isEmpty = false := by
    simp [CircularBuffer.isEmpty, CircularBuffer.size]
    omega
  have h2 : b.checkRemovalLimitations 1 = false := by
    simp [CircularBuffer.checkRemovalLimitations]
    omega
  rw [h1, h2]
  rfl

theorem dequeue_eq_removing {T : Type} {b : CircularBuffer T}
    (hpos : 0 < b.elementCount) :
    b.dequeue = ({ b with
                    buffer := setAt b.buffer
                      (b.wrapIndex (b.getEndIndex - 1)) none,
                    elementCount := b.elementCount - 1 },
                 some (readAt b.buffer (b.wrapIndex (b.getEndIndex - 1)))) := by
  unfold CircularBuffer.dequeue
  have h1 : b.isEmpty = false := by
    simp [CircularBuffer.isEmpty, CircularBuffer.size]
    omega
  have h2 : b.checkRemovalLimitations 1 = false := by
    simp [CircularBuffer.checkRemovalLimitations]
    omega
  rw [h1, h2]
  rfl

/-! ### Effect of the mutation steps on the logical sequence -/

theorem logicalSeq_def {T : Type} (b : CircularBuffer T) :
    b.logicalSeq = seqFrom b.buffer b.capacity b.firstIndex
      b.elementCount.toNat := rfl

theorem logicalSeq_length {T : Type} (b : CircularBuffer T) :
    b.logicalSeq.length = b.elementCount.toNat := by
  rw [logicalSeq_def, seqFrom_length]

theorem pushStep_logical_notFull {T : Type} {b : CircularBuffer T}
    (hwf : b.WF) (hnf : b.elementCount < b.capacity) (e : T) :
    (b.pushStep e).logicalSeq = b.logicalSeq ++ [some e] := by
  obtain ⟨hc, hf0, hfc, hn0, hnc⟩ := hwf
  have hfull : b.isFull = false := by
    simp [CircularBuffer.isFull, CircularBuffer.size, CircularBuffer.getCapacity]
    omega
  rw [pushStep_eq_notFull hfull, logicalSeq_def, logicalSeq_def]
  simp only
  have hn : (b.elementCount + 1).toNat = b.elementCount.toNat + 1 := by omega
  rw [hn, seqFrom_succ_last]
  have hcast : (b.elementCount.toNat : Int) = b.elementCount :=
    Int.toNat_of_nonneg hn0
  have hend : b.getEndIndex
      = wrapMod b.capacity (b.firstIndex + (b.elementCount.toNat : Int)) := by
    rw [hcast]; rfl
  congr 1
  · rw [hend]
    apply seqFrom_setAt_outside
    intro k hk
    apply wrapMod_window_ne hc b.firstIndex (k : Int)
      ((b.elementCount.toNat : Int))
    · omega
    · omega
  · rw [hend, readAt_setAt_self _ (wrapMod_nonneg hc _)]

theorem pushStep_logical_full {T : Type} {b : CircularBuffer T}
    (hwf : b.WF) (hfull : b.elementCount = b.capacity) (e : T) :
    (b.pushStep e).logicalSeq = b.logicalSeq.tail ++ [some e] := by
  obtain ⟨hc, hf0, hfc, hn0, hnc⟩ := hwf
  have hisfull : b.isFull = true := by
    simp [CircularBuffer.isFull, CircularBuffer.size, CircularBuffer.getCapacity]
    omega
  rw [pushStep_eq_full hisfull, logicalSeq_def, logicalSeq_def]
  simp only
  have hcast : (b.elementCount.toNat : Int) = b.elementCount :=
    Int.toNat_of_nonneg hn0
  -- the write position `getEndIndex` equals `firstIndex` when full
  have hend : b.getEndIndex = b.firstIndex := by
    show wrapMod b.capacity (b.firstIndex + b.elementCount) = b.firstIndex
    rw [hfull, wrapMod_add_cap hc, wrapMod_eq_self hc hf0 hfc]
  have hpos : 1 ≤ b.elementCount.toNat := by omega
  obtain ⟨m, hm⟩ : ∃ m, b.elementCount.toNat = m + 1 :=
    ⟨b.elementCount.toNat - 1, by omega⟩
  rw [hm]
  -- left side: start at wrapIndex (firstIndex + 1)
  have hstart : (b.wrapIndex (b.firstIndex + 1))
      = wrapMod b.capacity (b.firstIndex + 1) := rfl
  rw [hstart]
  have h1 : seqFrom (setAt b.buffer b.getEndIndex (some e)) b.capacity
      (wrapMod b.capacity (b.firstIndex + 1)) (m + 1)
      = seqFrom (setAt b.buffer b.getEndIndex (some e)) b.capacity
        (b.firstIndex + 1) (m + 1) := by
    have := seqFrom_startWrap (setAt b.buffer b.getEndIndex (some e)) hc
      (b.firstIndex + 1) 0 (m + 1)
    simpa using this
  rw [h1, seqFrom_succ_last]
  congr 1
  · -- the untouched front part is the tail of the original sequence
    rw [hend]
    have h2 : seqFrom (setAt b.buffer b.firstIndex (some e)) b.capacity
        (b.firstIndex + 1) m
        = seqFrom b.buffer b.capacity (b.firstIndex + 1) m := by
      apply seqFrom_setAt_outside
      intro k hk
      have hne := wrapMod_window_ne hc b.firstIndex (0 : Int) (1 + (k : Int))
        (by omega) (by omega)
      rw [add_zero, wrapMod_eq_self hc hf0 hfc,
        show b.firstIndex + (1 + (k : Int)) = b.firstIndex + 1 + (k : Int)
          by ring] at hne
      intro hcontra
      rw [hcontra] at hne
      exact hne rfl
    rw [h2, seqFrom_cons b.buffer b.capacity b.firstIndex m,
      List.tail_cons]
  · -- the last slot is the newly written element
    rw [hend]
    have h3 : wrapMod b.capacity (b.firstIndex + 1 + (m : Int))
        = b.firstIndex := by
      have hm' : (1 : Int) + (m : Int) = b.elementCount := by omega
      rw [show b.firstIndex + 1 + (m : Int)
          = b.firstIndex + ((1 : Int) + (m : Int)) by ring, hm', hfull,
        wrapMod_add_cap hc, wrapMod_eq_self hc hf0 hfc]
    rw [h3, readAt_setAt_self _ hf0]

theorem enqueueStep_logical_notFull {T : Type} {b : CircularBuffer T}
    (hwf : b.WF) (hnf : b.elementCount < b.capacity) (e : T) :
    (b.enqueueStep e).logicalSeq = some e :: b.logicalSeq := by
  obtain ⟨hc, hf0, hfc, hn0, hnc⟩ := hwf
  have hfull : b.isFull = false := by
    simp [CircularBuffer.isFull, CircularBuffer.size, CircularBuffer.getCapacity]
    omega
  rw [enqueueStep_eq_notFull hfull, logicalSeq_def, logicalSeq_def]
  simp only
  have hn : (b.elementCount + 1).toNat = b.elementCount.toNat + 1 := by omega
  rw [hn, seqFrom_cons]
  have hnfw : b.wrapIndex (b.firstIndex - 1)
      = wrapMod b.capacity (b.firstIndex - 1) := rfl
  congr 1
  · rw [hnfw, wrapMod_eq_self hc (wrapMod_nonneg hc _) (wrapMod_lt hc _),
      readAt_setAt_self _ (wrapMod_nonneg hc _)]
  · rw [hnfw]
    have h1 := seqFrom_startWrap
      (setAt b.buffer (wrapMod b.capacity (b.firstIndex - 1)) (some e)) hc
      (b.firstIndex - 1) 1 b.elementCount.toNat
    rw [h1, show b.firstIndex - 1 + 1 = b.firstIndex by ring]
    apply seqFrom_setAt_outside
    intro k hk
    have hne := wrapMod_window_ne hc b.firstIndex (-1 : Int) (k : Int)
      (by omega) (by omega)
    rw [show b.firstIndex + (-1 : Int) = b.firstIndex - 1 by ring] at hne
    exact fun hcontra => hne hcontra.symm

theorem enqueueStep_logical_full {T : Type} {b : CircularBuffer T}
    (hwf : b.WF) (hfull : b.elementCount = b.capacity) (e : T) :
    (b.enqueueStep e).logicalSeq = some e :: b.logicalSeq.dropLast := by
  obtain ⟨hc, hf0, hfc, hn0, hnc⟩ := hwf
  have hisfull : b.isFull = true := by
    simp [CircularBuffer.isFull, CircularBuffer.size, CircularBuffer.getCapacity]
    omega
  rw [enqueueStep_eq_full hisfull, logicalSeq_def, logicalSeq_def]
  simp only
  obtain ⟨m, hm⟩ : ∃ m, b.elementCount.toNat = m + 1 :=
    ⟨b.elementCount.toNat - 1, by omega⟩
  rw [hm, seqFrom_cons]
  have hnfw : b.wrapIndex (b.firstIndex - 1)
      = wrapMod b.capacity (b.firstIndex - 1) := rfl
  congr 1
  · rw [hnfw, wrapMod_eq_self hc (wrapMod_nonneg hc _) (wrapMod_lt hc _),
      readAt_setAt_self _ (wrapMod_nonneg hc _)]
  · rw [hnfw]
    have h1 := seqFrom_startWrap
      (setAt b.buffer (wrapMod b.capacity (b.firstIndex - 1)) (some e)) hc
      (b.firstIndex - 1) 1 m
    rw [h1, show b.firstIndex - 1 + 1 = b.firstIndex by ring]
    have h2 : seqFrom (setAt b.buffer
        (wrapMod b.capacity (b.firstIndex - 1)) (some e)) b.capacity
        b.firstIndex m = seqFrom b.buffer b.capacity b.firstIndex m := by
      apply seqFrom_setAt_outside
      intro k hk
      have hne := wrapMod_window_ne hc b.firstIndex (-1 : Int) (k : Int)
        (by omega) (by omega)
      rw [show b.firstIndex + (-1 : Int) = b.firstIndex - 1 by ring] at hne
      exact fun hcontra => hne hcontra.symm
    rw [h2, seqFrom_succ_last, List.dropLast_concat]

theorem shift_logical {T : Type} {b : CircularBuffer T}
    (hwf : b.WF) (hpos : 0 < b.elementCount) :
    b.logicalSeq = readAt b.buffer b.firstIndex :: ((b.shift).1).logicalSeq
      ∧ (b.shift).2 = some (readAt b.buffer b.firstIndex) := by
  obtain ⟨hc, hf0, hfc, hn0, hnc⟩ := hwf
  rw [shift_eq_removing hpos]
  refine ⟨?_, rfl⟩
  rw [logicalSeq_def, logicalSeq_def]
  simp only
  obtain ⟨m, hm⟩ : ∃ m, b.elementCount.toNat = m + 1 :=
    ⟨b.elementCount.toNat - 1, by omega⟩
  have hm' : (b.elementCount - 1).toNat = m := by omega
  rw [hm, hm', seqFrom_cons, wrapMod_eq_self hc hf0 hfc]
  congr 1
  have hstart : b.wrapIndex (b.firstIndex + 1)
      = wrapMod b.capacity (b.firstIndex + 1) := rfl
  rw [hstart]
  have h1 := seqFrom_startWrap (setAt b.buffer b.firstIndex none) hc
    (b.firstIndex + 1) 0 m
  simp only [add_zero] at h1
  rw [h1]
  have h2 : seqFrom (setAt b.buffer b.firstIndex none) b.capacity
      (b.firstIndex + 1) m = seqFrom b.buffer b.capacity (b.firstIndex + 1)
        m := by
    apply seqFrom_setAt_outside
    intro k hk
    have hne := wrapMod_window_ne hc b.firstIndex (0 : Int) (1 + (k : Int))
      (by omega) (by omega)
    rw [add_zero, wrapMod_eq_self hc hf0 hfc,
      show b.firstIndex + (1 + (k : Int)) = b.firstIndex + 1 + (k : Int)
        by ring] at hne
    exact fun hcontra => hne hcontra.symm
  rw [h2]

theorem dequeue_logical {T : Type} {b : CircularBuffer T}
    (hwf : b.WF) (hpos : 0 < b.elementCount) :
    b.logicalSeq = ((b.dequeue).1).logicalSeq
        ++ [readAt b.buffer (b.wrapIndex (b.getEndIndex - 1))]
      ∧ (b.dequeue).2
        = some (readAt b.buffer (b.wrapIndex (b.getEndIndex - 1))) := by
  obtain ⟨hc, hf0, hfc, hn0, hnc⟩ := hwf
  rw [dequeue_eq_removing hpos]
  refine ⟨?_, rfl⟩
  rw [logicalSeq_def, logicalSeq_def]
  simp only
  obtain ⟨m, hm⟩ : ∃ m, b.elementCount.toNat = m + 1 :=
    ⟨b.elementCount.toNat - 1, by omega⟩
  have hm' : (b.elementCount - 1).toNat = m := by omega
  have hri : b.wrapIndex (b.getEndIndex - 1)
      = wrapMod b.capacity (b.firstIndex + (m : Int)) := by
    show wrapMod b.capacity
        (wrapMod b.capacity (b.firstIndex + b.elementCount) - 1) = _
    rw [sub_eq_add_neg, wrapMod_add_right hc]
    congr 1
    omega
  rw [hm, hm', seqFrom_succ_last, hri]
  congr 1
  symm
  apply seqFrom_setAt_outside
  intro k hk
  exact wrapMod_window_ne hc b.firstIndex (k : Int) (m : Int)
    (by omega) (by omega)

/-! ### Preservation of the numeric invariants and of the fixed fields -/

theorem pushLoop_cons {T : Type} (b : CircularBuffer T) (e : T)
    (rest : List T) :
    b.pushLoop (e :: rest) = (b.pushStep e).pushLoop rest := rfl

theorem enqueueLoop_cons {T : Type} (b : CircularBuffer T) (e : T)
    (rest : List T) :
    b.enqueueLoop (e :: rest) = (b.enqueueStep e).enqueueLoop rest := rfl

theorem shiftResults_succ {T : Type} (b : CircularBuffer T) (n : Nat) :
    b.shiftResults (n + 1) = (b.shift).2 :: (b.shift).1.shiftResults n := rfl

theorem dequeueResults_succ {T : Type} (b : CircularBuffer T) (n : Nat) :
    b.dequeueResults (n + 1)
      = (b.dequeue).2 :: (b.dequeue).1.dequeueResults n := rfl

theorem pushStep_fields {T : Type} (b : CircularBuffer T) (e : T) :
    (b.pushStep e).capacity = b.capacity
      ∧ (b.pushStep e).allowOverwrite = b.allowOverwrite
      ∧ (b.pushStep e).allowOverremove = b.allowOverremove := by
  cases hfull : b.isFull
  · rw [pushStep_eq_notFull hfull]
    exact ⟨rfl, rfl, rfl⟩
  · rw [pushStep_eq_full hfull]
    exact ⟨rfl, rfl, rfl⟩

theorem enqueueStep_fields {T : Type} (b : CircularBuffer T) (e : T) :
    (b.enqueueStep e).capacity = b.capacity
      ∧ (b.enqueueStep e).allowOverwrite = b.allowOverwrite
      ∧ (b.enqueueStep e).allowOverremove = b.allowOverremove := by
  cases hfull : b.isFull
  · rw [enqueueStep_eq_notFull hfull]
    exact ⟨rfl, rfl, rfl⟩
  · rw [enqueueStep_eq_full hfull]
    exact ⟨rfl, rfl, rfl⟩

theorem pushStep_WF {T : Type} {b : CircularBuffer T} (hwf : b.WF) (e : T) :
    (b.pushStep e).WF := by
  obtain ⟨hc, hf0, hfc, hn0, hnc⟩ := hwf
  cases hfull : b.isFull
  · have hlt : b.elementCount < b.capacity := by
      have := hfull
      simp [CircularBuffer.isFull, CircularBuffer.size,
        CircularBuffer.getCapacity] at this
      omega
    rw [pushStep_eq_notFull hfull]
    exact ⟨hc, hf0, hfc, (show (0 : Int) ≤ b.elementCount + 1 by omega),
      (show b.elementCount + 1 ≤ b.capacity by omega)⟩
  · rw [pushStep_eq_full hfull]
    exact ⟨hc, wrapMod_nonneg hc _, wrapMod_lt hc _, hn0, hnc⟩

theorem enqueueStep_WF {T : Type} {b : CircularBuffer T} (hwf : b.WF)
    (e : T) : (b.enqueueStep e).WF := by
  obtain ⟨hc, hf0, hfc, hn0, hnc⟩ := hwf
  cases hfull : b.isFull
  · have hlt : b.elementCount < b.capacity := by
      have := hfull
      simp [CircularBuffer.isFull, CircularBuffer.size,
        CircularBuffer.getCapacity] at this
      omega
    rw [enqueueStep_eq_notFull hfull]
    exact ⟨hc, wrapMod_nonneg hc _, wrapMod_lt hc _,
      (show (0 : Int) ≤ b.elementCount + 1 by omega),
      (show b.elementCount + 1 ≤ b.capacity by omega)⟩
  · rw [enqueueStep_eq_full hfull]
    exact ⟨hc, wrapMod_nonneg hc _, wrapMod_lt hc _, hn0, hnc⟩

theorem pushLoop_WF_fields {T : Type} :
    ∀ (es : List T) (b : CircularBuffer T), b.WF →
      (b.pushLoop es).WF
        ∧ (b.pushLoop es).capacity = b.capacity
        ∧ (b.pushLoop es).allowOverwrite = b.allowOverwrite
        ∧ (b.pushLoop es).allowOverremove = b.allowOverremove
  | [], b, hwf => ⟨hwf, rfl, rfl, rfl⟩
  | e :: rest, b, hwf => by
    have hstep := pushStep_WF hwf e
    have hf := pushStep_fields b e
    have ih := pushLoop_WF_fields rest (b.pushStep e) hstep
    rw [pushLoop_cons]
    exact ⟨ih.1, by rw [ih.2.1, hf.1], by rw [ih.2.2.1, hf.2.1],
      by rw [ih.2.2.2, hf.2.2]⟩

theorem enqueueLoop_WF_fields {T : Type} :
    ∀ (es : List T) (b : CircularBuffer T), b.WF →
      (b.enqueueLoop es).WF
        ∧ (b.enqueueLoop es).capacity = b.capacity
        ∧ (b.enqueueLoop es).allowOverwrite = b.allowOverwrite
        ∧ (b.enqueueLoop es).allowOverremove = b.allowOverremove
  | [], b, hwf => ⟨hwf, rfl, rfl, rfl⟩
  | e :: rest, b, hwf => by
    have hstep := enqueueStep_WF hwf e
    have hf := enqueueStep_fields b e
    have ih := enqueueLoop_WF_fields rest (b.enqueueStep e) hstep
    rw [enqueueLoop_cons]
    exact ⟨ih.1, by rw [ih.2.1, hf.1], by rw [ih.2.2.1, hf.2.1],
      by rw [ih.2.2.2, hf.2.2]⟩

theorem shift_state_of_guard {T : Type} {b : CircularBuffer T}
    (h : (b.isEmpty && b.allowOverremove) = true
      ∨ b.checkRemovalLimitations 1 = true) : (b.shift).1 = b := by
  unfold CircularBuffer.shift
  rcases h with h | h
  · rw [if_pos h]
  · by_cases h1 : b.isEmpty && b.allowOverremove
    · rw [if_pos h1]
    · rw [if_neg h1, if_pos h]

theorem dequeue_state_of_guard {T : Type} {b : CircularBuffer T}
    (h : (b.isEmpty && b.allowOverremove) = true
      ∨ b.checkRemovalLimitations 1 = true) : (b.dequeue).1 = b := by
  unfold CircularBuffer.dequeue
  rcases h with h | h
  · rw [if_pos h]
  · by_cases h1 : b.isEmpty && b.allowOverremove
    · rw [if_pos h1]
    · rw [if_neg h1, if_pos h]

theorem removal_guards_pos {T : Type} {b : CircularBuffer T}
    (hwf : b.WF)
    (h1 : ¬((b.isEmpty && b.allowOverremove) = true))
    (h2 : ¬(b.checkRemovalLimitations 1 = true)) :
    0 < b.elementCount := by
  obtain ⟨hc, hf0, hfc, hn0, hnc⟩ := hwf
  simp [CircularBuffer.isEmpty, CircularBuffer.size] at h1
  simp [CircularBuffer.checkRemovalLimitations] at h2
  cases har : b.allowOverremove
  · rw [har] at h2
    simp at h2
    omega
  · rw [har] at h1
    simp at h1
    omega

theorem shift_WF {T : Type} {b : CircularBuffer T} (hwf : b.WF) :
    ((b.shift).1).WF := by
  by_cases h1 : (b.isEmpty && b.allowOverremove) = true
  · rw [shift_state_of_guard (Or.inl h1)]
    exact hwf
  by_cases h2 : b.checkRemovalLimitations 1 = true
  · rw [shift_state_of_guard (Or.inr h2)]
    exact hwf
  obtain ⟨hc, hf0, hfc, hn0, hnc⟩ := hwf
  have hpos : 0 < b.elementCount :=
    removal_guards_pos ⟨hc, hf0, hfc, hn0, hnc⟩ h1 h2
  rw [shift_eq_removing hpos]
  exact ⟨hc, wrapMod_nonneg hc _, wrapMod_lt hc _,
    (show (0 : Int) ≤ b.elementCount - 1 by omega),
    (show b.elementCount - 1 ≤ b.capacity by omega)⟩

theorem dequeue_WF {T : Type} {b : CircularBuffer T} (hwf : b.WF) :
    ((b.dequeue).1).WF := by
  by_cases h1 : (b.isEmpty && b.allowOverremove) = true
  · rw [dequeue_state_of_guard (Or.inl h1)]
    exact hwf
  by_cases h2 : b.checkRemovalLimitations 1 = true
  · rw [dequeue_state_of_guard (Or.inr h2)]
    exact hwf
  obtain ⟨hc, hf0, hfc, hn0, hnc⟩ := hwf
  have hpos : 0 < b.elementCount :=
    removal_guards_pos ⟨hc, hf0, hfc, hn0, hnc⟩ h1 h2
  rw [dequeue_eq_removing hpos]
  exact ⟨hc, hf0, hfc,
    (show (0 : Int) ≤ b.elementCount - 1 by omega),
    (show b.elementCount - 1 ≤ b.capacity by omega)⟩

/-! ### The insertion loops on a buffer with enough free space -/

theorem pushLoop_logical {T : Type} :
    ∀ (es : List T) (b : CircularBuffer T), b.WF →
      b.elementCount + es.length ≤ b.capacity →
      (b.pushLoop es).logicalSeq = b.logicalSeq ++ es.map some
        ∧ (b.pushLoop es).elementCount = b.elementCount + es.length
        ∧ (b.pushLoop es).firstIndex = b.firstIndex
  | [], b, _, _ => ⟨by simp [CircularBuffer.pushLoop], by
      simp [CircularBuffer.pushLoop], rfl⟩
  | e :: rest, b, hwf, hroom => by
    have hlen : ((e :: rest).length : Int) = (rest.length : Int) + 1 := by
      rw [List.length_cons]
      push_cast
      ring
    have hlt : b.elementCount < b.capacity := by
      rw [hlen] at hroom
      omega
    have hfull : b.isFull = false := by
      simp [CircularBuffer.isFull, CircularBuffer.size,
        CircularBuffer.getCapacity]
      omega
    have hstepwf : (b.pushStep e).WF := pushStep_WF hwf e
    have hcount : (b.pushStep e).elementCount = b.elementCount + 1 := by
      rw [pushStep_eq_notFull hfull]
    have hcap : (b.pushStep e).capacity = b.capacity := by
      rw [pushStep_eq_notFull hfull]
    have hfirst : (b.pushStep e).firstIndex = b.firstIndex := by
      rw [pushStep_eq_notFull hfull]
    have hroom' : (b.pushStep e).elementCount + (rest.length : Int)
        ≤ (b.pushStep e).capacity := by
      rw [hcount, hcap]
      rw [hlen] at hroom
      omega
    have ih := pushLoop_logical rest (b.pushStep e) hstepwf hroom'
    have hsl := pushStep_logical_notFull hwf hlt e
    refine ⟨?_, ?_, ?_⟩
    · rw [pushLoop_cons, ih.1, hsl, List.map_cons, List.append_assoc]
      rfl
    · rw [pushLoop_cons, ih.2.1, hcount, hlen]
      ring
    · rw [pushLoop_cons, ih.2.2, hfirst]

theorem enqueueLoop_logical {T : Type} :
    ∀ (es : List T) (b : CircularBuffer T), b.WF →
      b.elementCount + es.length ≤ b.capacity →
      (b.enqueueLoop es).logicalSeq = (es.map some).reverse ++ b.logicalSeq
        ∧ (b.enqueueLoop es).elementCount = b.elementCount + es.length
  | [], b, _, _ => ⟨by simp [CircularBuffer.enqueueLoop], by
      simp [CircularBuffer.enqueueLoop]⟩
  | e :: rest, b, hwf, hroom => by
    have hlen : ((e :: rest).length : Int) = (rest.length : Int) + 1 := by
      rw [List.length_cons]
      push_cast
      ring
    have hlt : b.elementCount < b.capacity := by
      rw [hlen] at hroom
      omega
    have hfull : b.isFull = false := by
      simp [CircularBuffer.isFull, CircularBuffer.size,
        CircularBuffer.getCapacity]
      omega
    have hstepwf : (b.enqueueStep e).WF := enqueueStep_WF hwf e
    have hcount : (b.enqueueStep e).elementCount = b.elementCount + 1 := by
      rw [enqueueStep_eq_notFull hfull]
    have hcap : (b.enqueueStep e).capacity = b.capacity := by
      rw [enqueueStep_eq_notFull hfull]
    have hroom' : (b.enqueueStep e).elementCount + (rest.length : Int)
        ≤ (b.enqueueStep e).capacity := by
      rw [hcount, hcap]
      rw [hlen] at hroom
      omega
    have ih := enqueueLoop_logical rest (b.enqueueStep e) hstepwf hroom'
    have hsl := enqueueStep_logical_notFull hwf hlt e
    refine ⟨?_, ?_⟩
    · rw [enqueueLoop_cons, ih.1, hsl, List.map_cons, List.reverse_cons,
        List.append_assoc]
      rfl
    · rw [enqueueLoop_cons, ih.2, hcount, hlen]
      ring

/-! ### Draining a buffer whose logical sequence is known -/

theorem shiftResults_all {T : Type} :
    ∀ (es : List T) (b : CircularBuffer T), b.WF →
      b.logicalSeq = es.map some →
      b.shiftResults es.length = es.map (fun e => some (some e))
  | [], _, _, _ => rfl
  | e :: rest, b, hwf, hseq => by
    have hlen := logicalSeq_length b
    rw [hseq] at hlen
    simp at hlen
    have hpos : 0 < b.elementCount := by omega
    obtain ⟨hcons, hres⟩ := shift_logical hwf hpos
    rw [hseq, List.map_cons] at hcons
    rw [List.length_cons, shiftResults_succ, List.map_cons]
    obtain ⟨h1, h2⟩ := List.cons_eq_cons.mp hcons
    rw [hres, ← h1]
    congr 1
    exact shiftResults_all rest (b.shift).1 (shift_WF hwf) h2.symm

theorem dequeueResults_all {T : Type} :
    ∀ (es : List T) (b : CircularBuffer T), b.WF →
      b.logicalSeq = (es.map some).reverse →
      b.dequeueResults es.length = es.map (fun e => some (some e))
  | [], _, _, _ => rfl
  | e :: rest, b, hwf, hseq => by
    have hlen := logicalSeq_length b
    rw [hseq] at hlen
    simp at hlen
    have hpos : 0 < b.elementCount := by omega
    obtain ⟨happ, hres⟩ := dequeue_logical hwf hpos
    rw [hseq, List.map_cons, List.reverse_cons] at happ
    have hinj := List.append_inj' happ.symm (by simp)
    rw [List.length_cons, dequeueResults_succ, List.map_cons]
    have hr : readAt b.buffer (b.wrapIndex (b.getEndIndex - 1)) = some e := by
      have := hinj.2
      simpa using this
    rw [hres, hr]
    congr 1
    exact dequeueResults_all rest (b.dequeue).1 (dequeue_WF hwf) hinj.1

/-! ### Unfolding `push` / `enqueue` around the validation check -/

theorem push_eq_of_throw {T : Type} {b : CircularBuffer T} {es : List T}
    (h : b.checkInsertionLimitations (es.length : Int) = true) :
    b.push es = (b, none) := by
  unfold CircularBuffer.push
  rw [if_pos h]

theorem push_eq_of_ok_noOverwrite {T : Type} {b : CircularBuffer T}
    {es : List T} (h : b.checkInsertionLimitations (es.length : Int) = false)
    (how : b.allowOverwrite = false) :
    b.push es = (b.pushLoop es, some (b.pushLoop es).size) := by
  unfold CircularBuffer.push
  rw [if_neg (by rw [h]; exact Bool.false_ne_true), how]
  rfl

theorem enqueue_eq_of_throw {T : Type} {b : CircularBuffer T} {es : List T}
    (h : b.checkInsertionLimitations (es.length : Int) = true) :
    b.enqueue es = (b, none) := by
  unfold CircularBuffer.enqueue
  rw [if_pos h]

theorem enqueue_eq_of_ok_noOverwrite {T : Type} {b : CircularBuffer T}
    {es : List T} (h : b.checkInsertionLimitations (es.length : Int) = false)
    (how : b.allowOverwrite = false) :
    b.enqueue es = (b.enqueueLoop es, some (b.enqueueLoop es).size) := by
  unfold CircularBuffer.enqueue
  rw [if_neg (by rw [h]; exact Bool.false_ne_true), how]
  rfl

theorem jsSliceFrom_singleton_neg {T : Type} (e : T) {c : Int} (hc : 0 < c) :
    jsSliceFrom [e] (-c) = [e] := by
  unfold jsSliceFrom normIdx
  rw [if_pos (by omega)]
  have h : ((([e] : List T).length : Int) + -c).toNat = 0 := by
    simp
    omega
  rw [h, List.drop_zero]

theorem push_single_overwrite {T : Type} {b : CircularBuffer T} (e : T)
    (hc : 0 < b.capacity) (how : b.allowOverwrite = true) :
    b.push [e] = (b.pushStep e, some (b.pushStep e).size) := by
  unfold CircularBuffer.push
  rw [if_neg (by simp [CircularBuffer.checkInsertionLimitations, how]), how]
  simp only [if_pos]
  rw [show b.getCapacity = b.capacity from rfl,
    jsSliceFrom_singleton_neg e hc]
  rfl

theorem enqueue_single_overwrite {T : Type} {b : CircularBuffer T} (e : T)
    (hc : 0 < b.capacity) (how : b.allowOverwrite = true) :
    b.enqueue [e] = (b.enqueueStep e, some (b.enqueueStep e).size) := by
  unfold CircularBuffer.enqueue
  rw [if_neg (by simp [CircularBuffer.checkInsertionLimitations, how]), how]
  simp only [if_pos]
  rw [show b.getCapacity = b.capacity from rfl,
    jsSliceFrom_singleton_neg e hc]
  rfl

/-! ### Claim theorems -/

/-- C1: the claim states that `toArray()` always returns the logical
sequence front-to-back with length `size()`, and that in the non-wrapped
case it is the contiguous slice of storage starting at `firstIndex`
containing `size()` elements.  The code refutes this: on a buffer of
capacity 2 after `push(1,2)` and one `shift()`, the occupied region does
not wrap (`arePointersReversed` is `false`), `size()` is 1, yet `toArray()`
is `[]` because the source computes `buffer.slice(firstIndex, size())`,
using `size()` as an end offset instead of `firstIndex + size()`.  The
logical content of that state is `[2]`. -/
theorem C1_toArray_bug_exhibit :
    ((((CircularBuffer.new 2 false false :
          CircularBuffer Nat).push [1, 2]).1.shift).1).arePointersReversed
        = false
      ∧ ((((CircularBuffer.new 2 false false :
          CircularBuffer Nat).push [1, 2]).1.shift).1).toArray = []
      ∧ ((((CircularBuffer.new 2 false false :
          CircularBuffer Nat).push [1, 2]).1.shift).1).size = 1
      ∧ ((((CircularBuffer.new 2 false false :
          CircularBuffer Nat).push [1, 2]).1.shift).1).logicalSeq
        = [some 2] := by
  decide

/-- C2: inserting one element into a full buffer with `allowOverwrite=true`
evicts the logically oldest element from the end opposite the insertion end
(`push` drops the logical front, `enqueue` drops the logical back), leaves
`size()` at `capacity`, and in particular on capacity 4 after
`push(1,2,3,4)` a further `push(5)` yields `toArray() = [2,3,4,5]`. -/
theorem C2_full_overwrite_insert {T : Type} (b : CircularBuffer T) (e : T)
    (hwf : b.WF) (hfull : b.elementCount = b.capacity)
    (how : b.allowOverwrite = true) :
    ((b.push [e]).2 = some b.capacity
        ∧ ((b.push [e]).1).logicalSeq = b.logicalSeq.tail ++ [some e]
        ∧ ((b.push [e]).1).size = b.capacity
        ∧ (b.enqueue [e]).2 = some b.capacity
        ∧ ((b.enqueue [e]).1).logicalSeq = some e :: b.logicalSeq.dropLast
        ∧ ((b.enqueue [e]).1).size = b.capacity)
      ∧ (((((CircularBuffer.new 4 true false : CircularBuffer Nat).push
            [1, 2, 3, 4]).1).push [5]).1).toArray
          = [some 2, some 3, some 4, some 5] := by
  have hc : 0 < b.capacity := hwf.1
  have hisfull : b.isFull = true := by
    simp [CircularBuffer.isFull, CircularBuffer.size,
      CircularBuffer.getCapacity]
    omega
  have hpsize : (b.pushStep e).size = b.capacity := by
    rw [show (b.pushStep e).size = (b.pushStep e).elementCount from rfl,
      pushStep_eq_full hisfull]
    exact hfull
  have hesize : (b.enqueueStep e).size = b.capacity := by
    rw [show (b.enqueueStep e).size = (b.enqueueStep e).elementCount
        from rfl, enqueueStep_eq_full hisfull]
    exact hfull
  refine ⟨⟨?_, ?_, ?_, ?_, ?_, ?_⟩, by decide⟩
  · rw [push_single_overwrite e hc how, hpsize]
  · rw [push_single_overwrite e hc how]
    exact pushStep_logical_full hwf hfull e
  · rw [push_single_overwrite e hc how]
    exact hpsize
  · rw [enqueue_single_overwrite e hc how, hesize]
  · rw [enqueue_single_overwrite e hc how]
    exact enqueueStep_logical_full hwf hfull e
  · rw [enqueue_single_overwrite e hc how]
    exact hesize

/-- C2 witness: a concrete full capacity-2 buffer with
`allowOverwrite=true`, inserting the element 9. -/
def c2WitnessBuf : CircularBuffer Nat :=
  ⟨0, 2, 2, [some 7, some 8], true, false⟩

theorem C2_full_overwrite_insert_witness :
    c2WitnessBuf.WF ∧ c2WitnessBuf.elementCount = c2WitnessBuf.capacity
      ∧ c2WitnessBuf.allowOverwrite = true
      ∧ (((c2WitnessBuf.push [9]).2 = some c2WitnessBuf.capacity
          ∧ ((c2WitnessBuf.push [9]).1).logicalSeq
            = c2WitnessBuf.logicalSeq.tail ++ [some 9]
          ∧ ((c2WitnessBuf.push [9]).1).size = c2WitnessBuf.capacity
          ∧ (c2WitnessBuf.enqueue [9]).2 = some c2WitnessBuf.capacity
          ∧ ((c2WitnessBuf.enqueue [9]).1).logicalSeq
            = some 9 :: c2WitnessBuf.logicalSeq.dropLast
          ∧ ((c2WitnessBuf.enqueue [9]).1).size = c2WitnessBuf.capacity)
        ∧ (((((CircularBuffer.new 4 true false : CircularBuffer Nat).push
              [1, 2, 3, 4]).1).push [5]).1).toArray
            = [some 2, some 3, some 4, some 5]) :=
  ⟨by decide, by decide, rfl,
    C2_full_overwrite_insert c2WitnessBuf 9 (by decide) (by decide) rfl⟩

/-- C3: with `allowOverwrite=false`, an insertion of `n` elements (by
`push` or by `enqueue`) throws if and only if `n > freeSpace()`, and when
it throws the returned state is exactly the original buffer (no field is
mutated). -/
theorem C3_insert_error_iff {T : Type} (b : CircularBuffer T) (es : List T)
    (how : b.allowOverwrite = false) :
    ((b.push es).2 = none ↔ (es.length : Int) > b.freeSpace)
      ∧ ((b.push es).2 = none → (b.push es).1 = b)
      ∧ ((b.enqueue es).2 = none ↔ (es.length : Int) > b.freeSpace)
      ∧ ((b.enqueue es).2 = none → (b.enqueue es).1 = b) := by
  cases hck : b.checkInsertionLimitations (es.length : Int)
  · have hnot : ¬((es.length : Int) > b.freeSpace) := by
      simp [CircularBuffer.checkInsertionLimitations, how] at hck
      omega
    rw [push_eq_of_ok_noOverwrite hck how,
      enqueue_eq_of_ok_noOverwrite hck how]
    refine ⟨?_, ?_, ?_, ?_⟩ <;> simp [hnot]
  · have hgt : (es.length : Int) > b.freeSpace := by
      simp [CircularBuffer.checkInsertionLimitations, how] at hck
      omega
    rw [push_eq_of_throw hck, enqueue_eq_of_throw hck]
    refine ⟨?_, ?_, ?_, ?_⟩ <;> simp [hgt]

/-- C3 witness: capacity-2 empty buffer, inserting three elements throws
and mutates nothing; the equivalence is applied at a concrete state. -/
def c3WitnessBuf : CircularBuffer Nat :=
  CircularBuffer.new 2 false false

theorem C3_insert_error_iff_witness :
    c3WitnessBuf.allowOverwrite = false
      ∧ (((c3WitnessBuf.push [1, 2, 3]).2 = none
          ↔ (([1, 2, 3] : List Nat).length : Int) > c3WitnessBuf.freeSpace)
        ∧ ((c3WitnessBuf.push [1, 2, 3]).2 = none
          → (c3WitnessBuf.push [1, 2, 3]).1 = c3WitnessBuf)
        ∧ ((c3WitnessBuf.enqueue [1, 2, 3]).2 = none
          ↔ (([1, 2, 3] : List Nat).length : Int) > c3WitnessBuf.freeSpace)
        ∧ ((c3WitnessBuf.enqueue [1, 2, 3]).2 = none
          → (c3WitnessBuf.enqueue [1, 2, 3]).1 = c3WitnessBuf)) :=
  ⟨rfl, C3_insert_error_iff c3WitnessBuf [1, 2, 3] rfl⟩

/-- C4: on an empty buffer, `shift()`, `dequeue()` and its alias `pop()`
return `undefined` with no mutation when `allowOverremove=true`, and throw
with no mutation when `allowOverremove=false`; `size()` stays 0 because the
state is returned unchanged. -/
theorem C4_empty_removal {T : Type} (b : CircularBuffer T)
    (h : b.size = 0) :
    (b.allowOverremove = true →
      b.shift = (b, some none) ∧ b.dequeue = (b, some none)
        ∧ b.pop = (b, some none))
      ∧ (b.allowOverremove = false →
        b.shift = (b, none) ∧ b.dequeue = (b, none) ∧ b.pop = (b, none)) := by
  have hempty : b.isEmpty = true := by
    simp [CircularBuffer.isEmpty]
    exact h
  constructor
  · intro har
    have hguard : (b.isEmpty && b.allowOverremove) = true := by
      rw [hempty, har]
      rfl
    have hs : b.shift = (b, some none) := by
      unfold CircularBuffer.shift
      rw [if_pos hguard]
    have hd : b.dequeue = (b, some none) := by
      unfold CircularBuffer.dequeue
      rw [if_pos hguard]
    exact ⟨hs, hd, by rw [show b.pop = b.dequeue from rfl]; exact hd⟩
  · intro har
    have hguard : (b.isEmpty && b.allowOverremove) = false := by
      rw [har]
      exact Bool.and_false _
    have hck : b.checkRemovalLimitations 1 = true := by
      have h0 : b.elementCount = 0 := h
      simp [CircularBuffer.checkRemovalLimitations, har, h0]
    have hs : b.shift = (b, none) := by
      unfold CircularBuffer.shift
      rw [if_neg (by rw [hguard]; exact Bool.false_ne_true), if_pos hck]
    have hd : b.dequeue = (b, none) := by
      unfold CircularBuffer.dequeue
      rw [if_neg (by rw [hguard]; exact Bool.false_ne_true), if_pos hck]
    exact ⟨hs, hd, by rw [show b.pop = b.dequeue from rfl]; exact hd⟩

/-- C4 witness: the two policies at concrete empty buffers.  The theorem is
applied at an empty buffer with `allowOverremove=true`; both implications
are part of the instantiated statement. -/
def c4WitnessBuf : CircularBuffer Nat :=
  CircularBuffer.new 3 false true

theorem C4_empty_removal_witness :
    c4WitnessBuf.size = 0
      ∧ ((c4WitnessBuf.allowOverremove = true →
          c4WitnessBuf.shift = (c4WitnessBuf, some none)
            ∧ c4WitnessBuf.dequeue = (c4WitnessBuf, some none)
            ∧ c4WitnessBuf.pop = (c4WitnessBuf, some none))
        ∧ (c4WitnessBuf.allowOverremove = false →
          c4WitnessBuf.shift = (c4WitnessBuf, none)
            ∧ c4WitnessBuf.dequeue = (c4WitnessBuf, none)
            ∧ c4WitnessBuf.pop = (c4WitnessBuf, none))) :=
  ⟨rfl, C4_empty_removal c4WitnessBuf rfl⟩

theorem new_WF {T : Type} {cap : Int} (hc : 0 < cap)
    (ow orm : Bool) : (CircularBuffer.new (T := T) cap ow orm).WF :=
  ⟨hc, le_refl 0, hc, le_refl 0, hc.le⟩

theorem new_logicalSeq {T : Type} (cap : Int) (ow orm : Bool) :
    (CircularBuffer.new (T := T) cap ow orm).logicalSeq = [] := rfl

theorem new_check_ok {T : Type} {cap : Int} {es : List T}
    (hlen : (es.length : Int) ≤ cap) :
    (CircularBuffer.new (T := T) cap false false).checkInsertionLimitations
      (es.length : Int) = false := by
  simp [CircularBuffer.checkInsertionLimitations, CircularBuffer.freeSpace,
    CircularBuffer.getCapacity, CircularBuffer.size, CircularBuffer.new]
  omega

/-- C5: with both policy flags false, pushing `e1..en` (with `n ≤ capacity`)
into a fresh buffer succeeds and `n` subsequent `shift()` calls return
`e1..en` in the original insertion order (strict FIFO). -/
theorem C5_push_shift_fifo {T : Type} (cap : Int) (es : List T)
    (hc : 0 < cap) (hlen : (es.length : Int) ≤ cap) :
    ((CircularBuffer.new cap false false : CircularBuffer T).push es).2
        = some (es.length : Int)
      ∧ (((CircularBuffer.new cap false false :
            CircularBuffer T).push es).1).shiftResults es.length
        = es.map (fun e => some (some e)) := by
  have hwf0 : (CircularBuffer.new (T := T) cap false false).WF :=
    new_WF hc false false
  have hpush := push_eq_of_ok_noOverwrite (new_check_ok hlen) rfl
  have hroom : (CircularBuffer.new (T := T) cap false
      false).elementCount + (es.length : Int)
      ≤ (CircularBuffer.new (T := T) cap false false).capacity := by
    show (0 : Int) + (es.length : Int) ≤ cap
    omega
  have hloop := pushLoop_logical es _ hwf0 hroom
  have hseq : ((CircularBuffer.new (T := T) cap false
      false).pushLoop es).logicalSeq = es.map some := by
    rw [hloop.1, new_logicalSeq, List.nil_append]
  have hwfl := (pushLoop_WF_fields es _ hwf0).1
  constructor
  · rw [hpush]
    show some ((CircularBuffer.new (T := T) cap false
      false).pushLoop es).elementCount = _
    rw [hloop.2.1]
    show some ((0 : Int) + (es.length : Int)) = _
    rw [zero_add]
  · rw [hpush]
    exact shiftResults_all es _ hwfl hseq

theorem C5_push_shift_fifo_witness :
    (0 : Int) < 3 ∧ ((([10, 20] : List Nat).length : Int) ≤ 3)
      ∧ (((CircularBuffer.new 3 false false :
            CircularBuffer Nat).push [10, 20]).2
          = some (([10, 20] : List Nat).length : Int)
        ∧ (((CircularBuffer.new 3 false false :
              CircularBuffer Nat).push [10, 20]).1).shiftResults
            ([10, 20] : List Nat).length
          = ([10, 20] : List Nat).map (fun e => some (some e))) :=
  ⟨by decide, by decide, C5_push_shift_fifo 3 [10, 20] (by decide)
    (by decide)⟩

/-- C6: with both policy flags false, enqueueing `e1..en` (with
`n ≤ capacity`) into a fresh buffer succeeds and `n` subsequent `dequeue()`
calls return `e1..en` in the original insertion order (strict FIFO from the
opposite ends). -/
theorem C6_enqueue_dequeue_fifo {T : Type} (cap : Int) (es : List T)
    (hc : 0 < cap) (hlen : (es.length : Int) ≤ cap) :
    ((CircularBuffer.new cap false false : CircularBuffer T).enqueue es).2
        = some (es.length : Int)
      ∧ (((CircularBuffer.new cap false false :
            CircularBuffer T).enqueue es).1).dequeueResults es.length
        = es.map (fun e => some (some e)) := by
  have hwf0 : (CircularBuffer.new (T := T) cap false false).WF :=
    new_WF hc false false
  have henq := enqueue_eq_of_ok_noOverwrite (new_check_ok hlen) rfl
  have hroom : (CircularBuffer.new (T := T) cap false
      false).elementCount + (es.length : Int)
      ≤ (CircularBuffer.new (T := T) cap false false).capacity := by
    show (0 : Int) + (es.length : Int) ≤ cap
    omega
  have hloop := enqueueLoop_logical es _ hwf0 hroom
  have hseq : ((CircularBuffer.new (T := T) cap false
      false).enqueueLoop es).logicalSeq = (es.map some).reverse := by
    rw [hloop.1, new_logicalSeq, List.append_nil]
  have hwfl := (enqueueLoop_WF_fields es _ hwf0).1
  constructor
  · rw [henq]
    show some ((CircularBuffer.new (T := T) cap false
      false).enqueueLoop es).elementCount = _
    rw [hloop.2]
    show some ((0 : Int) + (es.length : Int)) = _
    rw [zero_add]
  · rw [henq]
    exact dequeueResults_all es _ hwfl hseq

theorem C6_enqueue_dequeue_fifo_witness :
    (0 : Int) < 3 ∧ ((([10, 20] : List Nat).length : Int) ≤ 3)
      ∧ (((CircularBuffer.new 3 false false :
            CircularBuffer Nat).enqueue [10, 20]).2
          = some (([10, 20] : List Nat).length : Int)
        ∧ (((CircularBuffer.new 3 false false :
              CircularBuffer Nat).enqueue [10, 20]).1).dequeueResults
            ([10, 20] : List Nat).length
          = ([10, 20] : List Nat).map (fun e => some (some e))) :=
  ⟨by decide, by decide, C6_enqueue_dequeue_fifo 3 [10, 20] (by decide)
    (by decide)⟩

/-- C7: starting from any state satisfying the invariants of a buffer
constructed with positive capacity (`0 < capacity`,
`0 ≤ count ≤ capacity`, `0 ≤ firstIndex < capacity`), the state left behind
by each public mutating operation -- `push`, `enqueue`, `shift`, `dequeue`,
`pop`, whether it completes or throws -- still satisfies them; the query
methods take no state and cannot violate them. -/
theorem C7_invariants_preserved {T : Type} (b : CircularBuffer T)
    (es : List T) (hwf : b.WF) :
    ((b.push es).1).WF ∧ ((b.enqueue es).1).WF ∧ ((b.shift).1).WF
      ∧ ((b.dequeue).1).WF ∧ ((b.pop).1).WF := by
  refine ⟨?_, ?_, shift_WF hwf, dequeue_WF hwf, dequeue_WF hwf⟩
  · cases hck : b.checkInsertionLimitations (es.length : Int)
    · unfold CircularBuffer.push
      rw [if_neg (by rw [hck]; exact Bool.false_ne_true)]
      exact (pushLoop_WF_fields _ _ hwf).1
    · rw [push_eq_of_throw hck]
      exact hwf
  · cases hck : b.checkInsertionLimitations (es.length : Int)
    · unfold CircularBuffer.enqueue
      rw [if_neg (by rw [hck]; exact Bool.false_ne_true)]
      exact (enqueueLoop_WF_fields _ _ hwf).1
    · rw [enqueue_eq_of_throw hck]
      exact hwf

/-- C7 witness: a concrete mid-state buffer of capacity 3 holding two
elements, inserting one element. -/
def c7WitnessBuf : CircularBuffer Nat :=
  ⟨1, 2, 3, [none, some 4, some 5], false, false⟩

theorem C7_invariants_preserved_witness :
    c7WitnessBuf.WF
      ∧ (((c7WitnessBuf.push [9]).1).WF ∧ ((c7WitnessBuf.enqueue [9]).1).WF
        ∧ ((c7WitnessBuf.shift).1).WF ∧ ((c7WitnessBuf.dequeue).1).WF
        ∧ ((c7WitnessBuf.pop).1).WF) :=
  ⟨by decide, C7_invariants_preserved c7WitnessBuf [9] (by decide)⟩

/-- C8: for every buffer state, `size() + freeSpace() = getCapacity()`,
since `freeSpace()` is computed as `getCapacity() - size()`. -/
theorem C8_size_plus_freeSpace {T : Type} (b : CircularBuffer T) :
    b.size + b.freeSpace = b.getCapacity := by
  unfold CircularBuffer.freeSpace
  ring

/-- C9: for positive capacity, `wrapIndex(i)` (implemented with the JS
truncated `%`) agrees with the mathematical
`((i mod capacity) + capacity) mod capacity` for integers of either sign,
and its value lies in `[0, capacity)`. -/
theorem C9_wrapIndex_normalization {T : Type} (b : CircularBuffer T)
    (i : Int) (hc : 0 < b.capacity) :
    b.wrapIndex i = ((i % b.capacity) + b.capacity) % b.capacity
      ∧ 0 ≤ b.wrapIndex i ∧ b.wrapIndex i < b.capacity := by
  have hw : b.wrapIndex i = i % b.capacity := wrapMod_eq_emod hc i
  refine ⟨?_, ?_, ?_⟩
  · rw [hw]
    have h1 : i % b.capacity + b.capacity
        = i % b.capacity + b.capacity * 1 := by omega
    rw [h1, Int.add_mul_emod_self_left, Int.emod_emod]
  · rw [hw]
    exact Int.emod_nonneg i hc.ne'
  · rw [hw]
    exact Int.emod_lt_of_pos i hc

theorem C9_wrapIndex_normalization_witness :
    (0 : Int) < (CircularBuffer.new 5 false false :
        CircularBuffer Nat).capacity
      ∧ ((CircularBuffer.new 5 false false :
            CircularBuffer Nat).wrapIndex (-7)
          = (((-7 : Int) % 5) + 5) % 5
        ∧ 0 ≤ (CircularBuffer.new 5 false false :
            CircularBuffer Nat).wrapIndex (-7)
        ∧ (CircularBuffer.new 5 false false :
            CircularBuffer Nat).wrapIndex (-7) < 5) :=
  ⟨by decide, C9_wrapIndex_normalization
    (CircularBuffer.new 5 false false : CircularBuffer Nat) (-7)
    (by decide)⟩

/-- C10: calling `setValueIfNone(v)` on an `Option` in the none state
stores `v` as the internal value but does not touch the presence flag:
afterwards `isNone()` is still `true` and `isSome()` is `false`, yet
`getValue()` returns `v`. -/
theorem C10_setValueIfNone_keeps_none {T : Type} (o : JsOption T) (v : T)
    (h : o.isNone = true) :
    (o.setValueIfNone v).isNone = true
      ∧ (o.setValueIfNone v).isSome = false
      ∧ (o.setValueIfNone v).getValue = some v := by
  have hflag : o.hasInternalValue = false := by
    simpa [JsOption.isNone] using h
  unfold JsOption.setValueIfNone
  rw [if_pos h]
  exact ⟨by simp [JsOption.isNone, hflag],
    by simp [JsOption.isSome, hflag], rfl⟩

theorem C10_setValueIfNone_keeps_none_witness :
    (JsOption.noneOf Nat).isNone = true
      ∧ (((JsOption.noneOf Nat).setValueIfNone 3).isNone = true
        ∧ ((JsOption.noneOf Nat).setValueIfNone 3).isSome = false
        ∧ ((JsOption.noneOf Nat).setValueIfNone 3).getValue = some 3) :=
  ⟨rfl, C10_setValueIfNone_keeps_none (JsOption.noneOf Nat) 3 rfl⟩
